import Mathlib

/-
Verification of the MAE pre-training driver (`image/mae/main_pretrain.py`).

The script is a sequential orchestration loop; we embed it as a
trace-producing function.  Framework calls (engine.train, engine.zero_grad,
the lr scheduler, the forward pass, the loss scaler, torch.save, sys.exit)
are modelled as events recorded in order; the loop control flow (epoch and
batch iteration, the accumulation-window conditions, the divergence check,
the checkpoint cadence) is translated literally from the source.  Loss
values and learning rates are rationals; whether a loss value is finite
(math.isfinite) is an input predicate, since divergence depends on data.
-/

namespace MAEPretrain

/-- Result of `datasets.ImageFolder(path, transform=transform)`: an abstract
dataset identified by the directory it was loaded from and its transform. -/
structure ImageDataset where
  path : String
  transform : String
  deriving DecidableEq, Repr

/-- Arguments recorded by `colossalai.utils.get_dataloader`. -/
structure DataLoader where
  dataset : ImageDataset
  shuffle : Bool
  batchSize : ℕ
  numWorkers : ℕ
  pinMemory : Bool
  dropLast : Bool
  deriving DecidableEq, Repr

/-- `_load_imgfolder(path, transform)` from the source. -/
def _load_imgfolder (path : String) (transform : String) : ImageDataset :=
  { path := path, transform := transform }

/-- `pretrain_dataloaders(datapath, transform_train, transform_val)`:
loads the train and val image folders, then builds the two dataloaders
exactly as the source does (both `get_dataloader` calls pass
`dataset=train_dataset`; the second differs only in `drop_last`). -/
def pretrain_dataloaders (datapath : String) (transform_train : String)
    (transform_val : String) (batch_size : ℕ) : DataLoader × DataLoader :=
  let train_dataset := _load_imgfolder (datapath ++ "/train") transform_train
  let test_dataset := _load_imgfolder (datapath ++ "/val") transform_val
  let train_dataloader : DataLoader :=
    { dataset := train_dataset, shuffle := true, batchSize := batch_size,
      numWorkers := 1, pinMemory := true, dropLast := true }
  let test_dataloader : DataLoader :=
    { dataset := train_dataset, shuffle := true, batchSize := batch_size,
      numWorkers := 1, pinMemory := true, dropLast := false }
  -- `test_dataset` is built but never passed to a dataloader (the source
  -- passes `train_dataset` to both `get_dataloader` calls).
  let _ := test_dataset
  (train_dataloader, test_dataloader)

/-- The configuration keys read by the training loop (`gpc.config`). -/
structure Config where
  learningRate : ℚ
  minimumLearningRate : ℚ
  numEpochs : ℕ
  warmupEpochs : ℕ
  accumIter : ℕ
  maskRatio : ℚ
  checkpointInterval : ℕ
  resume : Bool
  resumeStartEpoch : ℕ
  outputDir : Option String
  deriving DecidableEq, Repr

/-- The record passed to `torch.save` by `save_model`, with exactly the five
keys the source dictionary has, in source order. -/
structure Checkpoint (M O S C : Type) where
  model : M
  optimizer : O
  epoch : ℕ
  scaler : S
  config : C
  deriving DecidableEq, Repr

/-- A file written by `torch.save`: its path and its contents. -/
structure SavedFile (M O S C : Type) where
  path : String
  contents : Checkpoint M O S C
  deriving DecidableEq, Repr

/-- `save_model(model, output_dir, epoch, config, optimizer, loss_scaler)`:
writes `\x7b"model": ..., "optimizer": ..., "epoch": ..., "scaler": ...,
"config": ...\x7d` to `output_dir / f"checkpoint-\x7bepoch\x7d.pth"`. -/
def save_model (M O S C : Type) (model : M) (output_dir : String) (epoch : ℕ)
    (config : C) (optimizer : O) (loss_scaler : S) : SavedFile M O S C :=
  { path := output_dir ++ "/" ++ "checkpoint-" ++ toString epoch ++ ".pth",
    contents := { model := model, optimizer := optimizer, epoch := epoch,
                  scaler := loss_scaler, config := config } }

/-- One observable action of the training loop, in program order:
`engine.train()`, `engine.zero_grad()`, the `lr_sched.adjust_learning_rate`
call (recorded with the position argument `data_iter_step/len(loader)+epoch`
and the four scheduler settings), the forward pass, the `loss_scaler(...)`
call (recorded with the already-divided loss and the `update_grad` flag),
the `torch.save` of a checkpoint, and `sys.exit(status)`. -/
inductive Event where
  | trainMode (epoch : ℕ)
  | zeroGrad
  | adjustLR (epoch : ℕ) (dataIterStep : ℕ) (pos : ℚ) (lr : ℚ) (minLr : ℚ)
      (epochs : ℕ) (warmupEpochs : ℕ)
  | forward (epoch : ℕ) (dataIterStep : ℕ) (maskRatio : ℚ)
  | scaleLoss (epoch : ℕ) (dataIterStep : ℕ) (loss : ℚ) (updateGrad : Bool)
  | save (epoch : ℕ)
  | exitProcess (status : ℕ)
  deriving DecidableEq, Repr

/-- `adjust_learning_rate(engine, data_iter_step, train_dataloader, epoch,
config)`: builds the scheduler args from the config and calls the external
scheduler at position `data_iter_step / len(train_dataloader) + epoch`. -/
def adjust_learning_rate (epoch : ℕ) (data_iter_step : ℕ) (B : ℕ)
    (cfg : Config) : Event :=
  Event.adjustLR epoch data_iter_step
    ((data_iter_step : ℚ) / (B : ℚ) + (epoch : ℚ))
    cfg.learningRate cfg.minimumLearningRate cfg.numEpochs cfg.warmupEpochs

/-- `scale_loss(engine, loss, loss_scaler, data_iter_step, config)`:
divides the loss by `ACCUM_ITER`, then invokes the loss scaler with
`update_grad=(data_iter_step + 1) % ACCUM_ITER == 0`. -/
def scale_loss (epoch : ℕ) (data_iter_step : ℕ) (loss : ℚ)
    (cfg : Config) : Event :=
  Event.scaleLoss epoch data_iter_step (loss / (cfg.accumIter : ℚ))
    ((data_iter_step + 1) % cfg.accumIter == 0)

/-- The events of one batch iteration of the inner loop: the conditional
lr adjustment, the forward pass, then either (loss finite) the scaler call
followed by the conditional `engine.zero_grad()`, or (loss not finite)
`exit_if_infinite_loss` firing `sys.exit(1)`. -/
def batchBlock (cfg : Config) (B : ℕ) (epoch : ℕ) (i : ℕ) (loss : ℚ)
    (lossFinite : Bool) : List Event :=
  (if i % cfg.accumIter = 0 then [adjust_learning_rate epoch i B cfg] else [])
    ++ [Event.forward epoch i cfg.maskRatio]
    ++ (if lossFinite then
          scale_loss epoch i loss cfg ::
            (if (i + 1) % cfg.accumIter = 0 then [Event.zeroGrad] else [])
        else [Event.exitProcess 1])

/-- Runs the inner batch loop over the given batch indices.  Returns the
emitted events and whether the process exited (a non-finite loss stops the
whole run immediately). -/
def runSteps (cfg : Config) (B : ℕ) (epoch : ℕ) (loss : ℕ → ℚ)
    (lossFinite : ℕ → Bool) : List ℕ → List Event × Bool
  | [] => ([], false)
  | i :: rest =>
    if lossFinite i then
      let r := runSteps cfg B epoch loss lossFinite rest
      (batchBlock cfg B epoch i (loss i) true ++ r.1, r.2)
    else
      (batchBlock cfg B epoch i (loss i) false, true)

/-- The epoch-end checkpoint condition:
`config.OUTPUT_DIR and (epoch % config.CHECKPOINT_INTERVAL == 0 or
epoch + 1 == config.NUM_EPOCHS)`. -/
def checkpointDue (cfg : Config) (epoch : ℕ) : Bool :=
  cfg.outputDir.isSome
    && (epoch % cfg.checkpointInterval == 0 || epoch + 1 == cfg.numEpochs)

/-- One epoch of the main loop: `engine.train()`, `engine.zero_grad()`, the
batch loop over `range(len(train_dataloader))`, then (if the run did not
exit) the conditional checkpoint save. -/
def runEpoch (cfg : Config) (B : ℕ) (loss : ℕ → ℕ → ℚ)
    (lossFinite : ℕ → ℕ → Bool) (epoch : ℕ) : List Event × Bool :=
  let r := runSteps cfg B epoch (loss epoch) (lossFinite epoch) (List.range B)
  if r.2 then
    (Event.trainMode epoch :: Event.zeroGrad :: r.1, true)
  else
    (Event.trainMode epoch :: Event.zeroGrad ::
        (r.1 ++ (if checkpointDue cfg epoch then [Event.save epoch] else [])),
      false)

/-- The epoch loop over a list of epoch indices, stopping as soon as an
epoch exits. -/
def runEpochs (cfg : Config) (B : ℕ) (loss : ℕ → ℕ → ℚ)
    (lossFinite : ℕ → ℕ → Bool) : List ℕ → List Event × Bool
  | [] => ([], false)
  | e :: rest =>
    let r := runEpoch cfg B loss lossFinite e
    if r.2 then (r.1, true)
    else
      let r' := runEpochs cfg B loss lossFinite rest
      (r.1 ++ r'.1, r'.2)

/-- Modelled from the spec: the bodies of `deit_helper.load_model_args` and
`util.misc.load_model` are outside `src/`; per the spec the resume routine
loads model, optimizer and scaler state in place and "returns the epoch
number at which the main loop should resume", the configured resume start
epoch (`RESUME_START_EPOCH`). -/
def resume_model (cfg : Config) : ℕ :=
  cfg.resumeStartEpoch

/-- `start_epoch = 0`, overwritten by `resume_model` when `config.RESUME`. -/
def start_epoch (cfg : Config) : ℕ :=
  if cfg.resume then resume_model cfg else 0

/-- The epoch indices visited by `for epoch in range(start_epoch,
config.NUM_EPOCHS)`. -/
def epochsVisited (cfg : Config) : List ℕ :=
  List.range' (start_epoch cfg) (cfg.numEpochs - start_epoch cfg)

/-- The full trace of `main` after initialization: the epoch loop from
`start_epoch` to `NUM_EPOCHS - 1`, with `B = len(train_dataloader)`,
`loss e i` the loss value of batch `i` of epoch `e`, and `lossFinite e i`
whether `math.isfinite` holds of it. -/
def mainTrace (cfg : Config) (B : ℕ) (loss : ℕ → ℕ → ℚ)
    (lossFinite : ℕ → ℕ → Bool) : List Event × Bool :=
  runEpochs cfg B loss lossFinite (epochsVisited cfg)

/-- Whether an event is a scaler call with the gradient update enabled
(the only action that steps the optimizer). -/
def isUpdStep : Event → Bool
  | Event.scaleLoss _ _ _ true => true
  | _ => false

/-- Whether an event is an epoch-start `engine.train()` call. -/
def isTrainMode : Event → Bool
  | Event.trainMode _ => true
  | _ => false

/-- The adjacency discipline of `engine.zero_grad()` in the trace: a
zero-grad only ever directly follows an epoch-start `engine.train()` or an
update-enabled scaler call, and each of those is directly followed by a
zero-grad. -/
def zeroGradPlacement (a : Event) (b : Event) : Prop :=
  (b = Event.zeroGrad → isUpdStep a = true ∨ isTrainMode a = true) ∧
  (isUpdStep a = true → b = Event.zeroGrad) ∧
  (isTrainMode a = true → b = Event.zeroGrad)

/-- A trace segment that does not begin with a zero-grad. -/
def headOK (l : List Event) : Prop :=
  ∀ x, l.head? = some x → x ≠ Event.zeroGrad

/-- A trace segment whose last event does not demand a zero-grad
successor (it is neither an update-enabled scaler call nor an epoch
start). -/
def lastOK (l : List Event) : Prop :=
  ∀ x, l.getLast? = some x → isUpdStep x = false ∧ isTrainMode x = false

/-- Whether an event is an update-enabled scaler call of the given epoch. -/
def updOfEpoch (e : ℕ) : Event → Bool
  | Event.scaleLoss e' _ _ true => e' == e
  | _ => false

/-- A concrete configuration used to instantiate the theorems: two-batch
accumulation windows, five epochs resuming at epoch 1, checkpoints every
second epoch into an output directory. -/
def cfgW : Config :=
  { learningRate := 1/1000, minimumLearningRate := 0,
    numEpochs := 5, warmupEpochs := 1, accumIter := 2,
    maskRatio := 3/4, checkpointInterval := 2,
    resume := true, resumeStartEpoch := 1,
    outputDir := some "out" }

/-- A concrete per-batch loss table: batch `i` of epoch `e` has loss
`e + i + 1`. -/
def lossW (e : ℕ) (i : ℕ) : ℚ :=
  (e : ℚ) + (i : ℚ) + 1

/-- A concrete finiteness table under which every loss is finite. -/
def finAllW (_e : ℕ) (_i : ℕ) : Bool :=
  true

/-- A concrete finiteness table under which batch 1 of epoch 2 produces a
non-finite loss and every other batch is finite. -/
def finBadW (e : ℕ) (i : ℕ) : Bool :=
  !(e == 2 && i == 1)

/-- Any scaler event inside a batch block carries that block's epoch and
step, the loss divided by `ACCUM_ITER`, and the window-completion flag;
it only exists when the finiteness check passed. -/
theorem mem_batchBlock_scaleLoss {cfg : Config} {B ep i e0 i0 : ℕ}
    {li l : ℚ} {u f : Bool}
    (h : Event.scaleLoss e0 i0 l u ∈ batchBlock cfg B ep i li f) :
    e0 = ep ∧ i0 = i ∧ f = true ∧ l = li / (cfg.accumIter : ℚ) ∧
      u = ((i + 1) % cfg.accumIter == 0) := by
  unfold batchBlock at h
  split_ifs at h <;>
    simp only [adjust_learning_rate, scale_loss, List.mem_append,
      List.mem_cons, List.mem_singleton, List.not_mem_nil, or_false,
      false_or, Event.scaleLoss.injEq] at h <;>
    simp_all

/-- Any lr-adjustment event inside a batch block carries the block's epoch
and step, fires only when `i % ACCUM_ITER == 0`, and carries the fractional
epoch position together with the four scheduler settings from the config. -/
theorem mem_batchBlock_adjustLR {cfg : Config} {B ep i e0 i0 : ℕ}
    {li pos lr ml : ℚ} {eps w : ℕ} {f : Bool}
    (h : Event.adjustLR e0 i0 pos lr ml eps w ∈ batchBlock cfg B ep i li f) :
    e0 = ep ∧ i0 = i ∧ i % cfg.accumIter = 0 ∧
      pos = (i : ℚ) / (B : ℚ) + (ep : ℚ) ∧
      lr = cfg.learningRate ∧ ml = cfg.minimumLearningRate ∧
      eps = cfg.numEpochs ∧ w = cfg.warmupEpochs := by
  unfold batchBlock at h
  split_ifs at h <;>
    simp only [adjust_learning_rate, scale_loss, List.mem_append,
      List.mem_cons, List.mem_singleton, List.not_mem_nil, or_false,
      false_or, Event.adjustLR.injEq] at h <;>
    simp_all

/-- Any exit event inside a batch block has status 1 and only exists when
the finiteness check failed. -/
theorem mem_batchBlock_exitProcess {cfg : Config} {B ep i s : ℕ} {li : ℚ}
    {f : Bool}
    (h : Event.exitProcess s ∈ batchBlock cfg B ep i li f) :
    s = 1 ∧ f = false := by
  unfold batchBlock at h
  split_ifs at h <;>
    simp only [adjust_learning_rate, scale_loss, List.mem_append,
      List.mem_cons, List.mem_singleton, List.not_mem_nil, or_false,
      false_or, Event.exitProcess.injEq] at h <;>
    simp_all

/-- Batch blocks never contain checkpoint-save events. -/
theorem save_not_mem_batchBlock {cfg : Config} {B ep i e0 : ℕ} {li : ℚ}
    {f : Bool} :
    Event.save e0 ∉ batchBlock cfg B ep i li f := by
  intro h
  unfold batchBlock at h
  split_ifs at h <;>
    simp [adjust_learning_rate, scale_loss] at h

/-- Batch blocks never contain epoch-start events. -/
theorem trainMode_not_mem_batchBlock {cfg : Config} {B ep i e0 : ℕ} {li : ℚ}
    {f : Bool} :
    Event.trainMode e0 ∉ batchBlock cfg B ep i li f := by
  intro h
  unfold batchBlock at h
  split_ifs at h <;>
    simp [adjust_learning_rate, scale_loss] at h

/-- Every event of the inner batch loop comes from the block of one of the
iterated batch indices. -/
theorem mem_runSteps {cfg : Config} {B ep : ℕ} {L : ℕ → ℚ} {F : ℕ → Bool}
    {ev : Event} :
    ∀ {steps : List ℕ}, ev ∈ (runSteps cfg B ep L F steps).1 →
      ∃ i ∈ steps, ev ∈ batchBlock cfg B ep i (L i) (F i)
  | [], h => by simp [runSteps] at h
  | i :: rest, h => by
    rw [runSteps] at h
    by_cases hf : F i = true
    · rw [if_pos hf] at h
      simp only [List.mem_append] at h
      rcases h with h | h
      · exact ⟨i, List.mem_cons_self .., by rwa [hf]⟩
      · obtain ⟨j, hj, hj2⟩ := mem_runSteps h
        exact ⟨j, List.mem_cons_of_mem _ hj, hj2⟩
    · rw [if_neg hf] at h
      have hf' : F i = false := by simpa using hf
      exact ⟨i, List.mem_cons_self .., by rwa [hf']⟩

/-- Every event of one epoch is the epoch-start pair, an inner-loop event,
or the epoch's own checkpoint save; the save only happens when the inner
loop did not exit and the checkpoint condition holds. -/
theorem mem_runEpoch {cfg : Config} {B e : ℕ} {L : ℕ → ℕ → ℚ}
    {F : ℕ → ℕ → Bool} {ev : Event}
    (h : ev ∈ (runEpoch cfg B L F e).1) :
    ev = Event.trainMode e ∨ ev = Event.zeroGrad ∨
      ev ∈ (runSteps cfg B e (L e) (F e) (List.range B)).1 ∨
      (ev = Event.save e ∧
        (runSteps cfg B e (L e) (F e) (List.range B)).2 = false ∧
        checkpointDue cfg e = true) := by
  unfold runEpoch at h
  by_cases hx : (runSteps cfg B e (L e) (F e) (List.range B)).2 = true
  · rw [if_pos hx] at h
    simp only [List.mem_cons] at h
    tauto
  · rw [if_neg hx] at h
    simp only [List.mem_cons, List.mem_append] at h
    rcases h with h | h | h | h
    · tauto
    · tauto
    · tauto
    · by_cases hd : checkpointDue cfg e = true
      · rw [if_pos hd] at h
        simp only [List.mem_singleton] at h
        exact Or.inr (Or.inr (Or.inr ⟨h, by simpa using hx, hd⟩))
      · rw [if_neg hd] at h
        simp at h

/-- Every event of the epoch loop belongs to one of the iterated epochs. -/
theorem mem_runEpochs {cfg : Config} {B : ℕ} {L : ℕ → ℕ → ℚ}
    {F : ℕ → ℕ → Bool} {ev : Event} :
    ∀ {es : List ℕ}, ev ∈ (runEpochs cfg B L F es).1 →
      ∃ e ∈ es, ev ∈ (runEpoch cfg B L F e).1
  | [], h => by simp [runEpochs] at h
  | e :: rest, h => by
    rw [runEpochs] at h
    by_cases hx : (runEpoch cfg B L F e).2 = true
    · rw [if_pos hx] at h
      exact ⟨e, List.mem_cons_self .., h⟩
    · rw [if_neg hx] at h
      simp only [List.mem_append] at h
      rcases h with h | h
      · exact ⟨e, List.mem_cons_self .., h⟩
      · obtain ⟨e', he', h2⟩ := mem_runEpochs h
        exact ⟨e', List.mem_cons_of_mem _ he', h2⟩

/-- When every loss of the iterated batches is finite, the inner loop does
not exit and its trace is the concatenation of the batch blocks. -/
theorem runSteps_eq_flatten {cfg : Config} {B ep : ℕ} {L : ℕ → ℚ}
    {F : ℕ → Bool} :
    ∀ {steps : List ℕ}, (∀ i ∈ steps, F i = true) →
      runSteps cfg B ep L F steps =
        ((steps.map fun i => batchBlock cfg B ep i (L i) true).flatten, false)
  | [], _ => by simp [runSteps]
  | i :: rest, h => by
    have hf : F i = true := h i (List.mem_cons_self ..)
    rw [runSteps, if_pos hf,
      runSteps_eq_flatten (fun j hj => h j (List.mem_cons_of_mem _ hj))]
    simp

/-- When every loss of an epoch is finite, the epoch trace is the start
pair, the batch blocks, then the conditional checkpoint save. -/
theorem runEpoch_eq_of_finite {cfg : Config} {B : ℕ} {L : ℕ → ℕ → ℚ}
    {F : ℕ → ℕ → Bool} {e : ℕ} (h : ∀ i < B, F e i = true) :
    runEpoch cfg B L F e =
      (Event.trainMode e :: Event.zeroGrad ::
        (((List.range B).map
            fun i => batchBlock cfg B e i (L e i) true).flatten
          ++ (if checkpointDue cfg e then [Event.save e] else [])),
        false) := by
  have hs := @runSteps_eq_flatten cfg B e (L e) (F e) (List.range B)
    (fun i hi => h i (List.mem_range.mp hi))
  rw [runEpoch, hs]
  simp

/-- When every loss of the iterated epochs is finite, the run does not exit
and its trace is the concatenation of the epoch traces. -/
theorem runEpochs_eq_of_finite {cfg : Config} {B : ℕ} {L : ℕ → ℕ → ℚ}
    {F : ℕ → ℕ → Bool} :
    ∀ {es : List ℕ}, (∀ e ∈ es, ∀ i < B, F e i = true) →
      runEpochs cfg B L F es =
        ((es.map fun e => (runEpoch cfg B L F e).1).flatten, false)
  | [], _ => by simp [runEpochs]
  | e :: rest, h => by
    have h1 := @runEpoch_eq_of_finite cfg B L F e
      (h e (List.mem_cons_self ..))
    have hsnd : (runEpoch cfg B L F e).2 = false := by rw [h1]
    rw [runEpochs, if_neg (by simp [hsnd]),
      runEpochs_eq_of_finite (fun e' he' => h e' (List.mem_cons_of_mem _ he'))]
    simp

/-- The scaler event of a finite-loss batch is in its batch block. -/
theorem scale_loss_mem_batchBlock {cfg : Config} {B ep i : ℕ} {li : ℚ} :
    scale_loss ep i li cfg ∈ batchBlock cfg B ep i li true := by
  unfold batchBlock
  split_ifs <;> simp_all

/-- The lr-adjustment event of a window-initial batch is in its block. -/
theorem adjust_mem_batchBlock {cfg : Config} {B ep i : ℕ} {li : ℚ}
    {f : Bool} (h : i % cfg.accumIter = 0) :
    adjust_learning_rate ep i B cfg ∈ batchBlock cfg B ep i li f := by
  unfold batchBlock
  rw [if_pos h]
  simp

/-- In an all-finite run, every event of the block of a visited batch is
in the main trace. -/
theorem mem_mainTrace_of_finite {cfg : Config} {B : ℕ} {L : ℕ → ℕ → ℚ}
    {F : ℕ → ℕ → Bool} {ev : Event} {e i : ℕ}
    (hfin : ∀ e' ∈ epochsVisited cfg, ∀ i' < B, F e' i' = true)
    (he : e ∈ epochsVisited cfg) (hi : i < B)
    (hev : ev ∈ batchBlock cfg B e i (L e i) true) :
    ev ∈ (mainTrace cfg B L F).1 := by
  rw [mainTrace, runEpochs_eq_of_finite hfin]
  refine List.mem_flatten.mpr
    ⟨(runEpoch cfg B L F e).1, List.mem_map_of_mem _ he, ?_⟩
  rw [runEpoch_eq_of_finite (hfin e he)]
  simp only [List.mem_cons, List.mem_append]
  exact Or.inr (Or.inr (Or.inl (List.mem_flatten.mpr
    ⟨_, List.mem_map_of_mem _ (List.mem_range.mpr hi), hev⟩)))

/-- Full characterization of the scaler events of the main trace: they sit
at a visited batch whose finiteness check passed, carry the batch loss
divided by `ACCUM_ITER`, and their update flag is the window-completion
test. -/
theorem scaleLoss_mem_mainTrace {cfg : Config} {B : ℕ} {L : ℕ → ℕ → ℚ}
    {F : ℕ → ℕ → Bool} {e i : ℕ} {l : ℚ} {u : Bool}
    (h : Event.scaleLoss e i l u ∈ (mainTrace cfg B L F).1) :
    e ∈ epochsVisited cfg ∧ i < B ∧ F e i = true ∧
      l = L e i / (cfg.accumIter : ℚ) ∧
      u = ((i + 1) % cfg.accumIter == 0) := by
  obtain ⟨e', he', h2⟩ := mem_runEpochs h
  rcases mem_runEpoch h2 with h3 | h3 | h3 | ⟨h3, -, -⟩
  · cases h3
  · cases h3
  · obtain ⟨j, hj, hb⟩ := mem_runSteps h3
    obtain ⟨rfl, rfl, hf, hl, hu⟩ := mem_batchBlock_scaleLoss hb
    exact ⟨he', List.mem_range.mp hj, hf, hl, hu⟩
  · cases h3

/-- Full characterization of the lr-adjustment events of the main trace:
they sit at a visited window-initial batch and carry the fractional epoch
position and the configured scheduler settings. -/
theorem adjustLR_mem_mainTrace {cfg : Config} {B : ℕ} {L : ℕ → ℕ → ℚ}
    {F : ℕ → ℕ → Bool} {e i : ℕ} {pos lr ml : ℚ} {eps w : ℕ}
    (h : Event.adjustLR e i pos lr ml eps w ∈ (mainTrace cfg B L F).1) :
    e ∈ epochsVisited cfg ∧ i < B ∧ i % cfg.accumIter = 0 ∧
      pos = (i : ℚ) / (B : ℚ) + (e : ℚ) ∧
      lr = cfg.learningRate ∧ ml = cfg.minimumLearningRate ∧
      eps = cfg.numEpochs ∧ w = cfg.warmupEpochs := by
  obtain ⟨e', he', h2⟩ := mem_runEpochs h
  rcases mem_runEpoch h2 with h3 | h3 | h3 | ⟨h3, -, -⟩
  · cases h3
  · cases h3
  · obtain ⟨j, hj, hb⟩ := mem_runSteps h3
    obtain ⟨rfl, rfl, hm, hpos, hlr, hml, heps, hw⟩ :=
      mem_batchBlock_adjustLR hb
    exact ⟨he', List.mem_range.mp hj, hm, hpos, hlr, hml, heps, hw⟩
  · cases h3

/-- The inner loop exits iff one of its batches fails the finiteness
check. -/
theorem runSteps_exit_iff {cfg : Config} {B ep : ℕ} {L : ℕ → ℚ}
    {F : ℕ → Bool} :
    ∀ {steps : List ℕ},
      (runSteps cfg B ep L F steps).2 = true ↔ ∃ i ∈ steps, F i = false
  | [] => by simp [runSteps]
  | i :: rest => by
    rw [runSteps]
    by_cases hf : F i = true
    · rw [if_pos hf]
      show (runSteps cfg B ep L F rest).2 = true ↔ _
      rw [@runSteps_exit_iff cfg B ep L F rest]
      constructor
      · rintro ⟨j, hj, hjf⟩
        exact ⟨j, List.mem_cons_of_mem _ hj, hjf⟩
      · rintro ⟨j, hj, hjf⟩
        rcases List.mem_cons.mp hj with rfl | hj
        · rw [hf] at hjf
          cases hjf
        · exact ⟨j, hj, hjf⟩
    · rw [if_neg hf]
      exact ⟨fun _ => ⟨i, List.mem_cons_self .., by simpa using hf⟩,
        fun _ => rfl⟩

/-- When the inner loop exits, its last event is `sys.exit(1)`. -/
theorem runSteps_getLast_of_exit {cfg : Config} {B ep : ℕ} {L : ℕ → ℚ}
    {F : ℕ → Bool} :
    ∀ {steps : List ℕ}, (runSteps cfg B ep L F steps).2 = true →
      (runSteps cfg B ep L F steps).1.getLast? = some (Event.exitProcess 1)
  | [], h => by simp [runSteps] at h
  | i :: rest, h => by
    rw [runSteps] at h ⊢
    by_cases hf : F i = true
    · rw [if_pos hf] at h ⊢
      replace h : (runSteps cfg B ep L F rest).2 = true := h
      have ih := @runSteps_getLast_of_exit cfg B ep L F rest h
      show (_ ++ (runSteps cfg B ep L F rest).1).getLast? = _
      rw [List.getLast?_append, ih]
      rfl
    · rw [if_neg hf] at h ⊢
      show (batchBlock cfg B ep i (L i) false).getLast? = _
      unfold batchBlock
      split_ifs <;> simp_all

/-- An epoch exits iff one of its batches fails the finiteness check. -/
theorem runEpoch_exit_iff {cfg : Config} {B : ℕ} {L : ℕ → ℕ → ℚ}
    {F : ℕ → ℕ → Bool} {e : ℕ} :
    (runEpoch cfg B L F e).2 = true ↔ ∃ i < B, F e i = false := by
  rw [runEpoch]
  by_cases hx : (runSteps cfg B e (L e) (F e) (List.range B)).2 = true
  · rw [if_pos hx]
    simpa [List.mem_range] using
      (@runSteps_exit_iff cfg B e (L e) (F e) (List.range B)).mp hx
  · rw [if_neg hx]
    simp only [show ∀ a b : List Event,
        ((a, false) : List Event × Bool).2 = (false : Bool) from fun _ _ => rfl]
    constructor
    · intro h
      cases h
    · rintro ⟨i, hi, hif⟩
      exact absurd ((@runSteps_exit_iff cfg B e (L e) (F e)
        (List.range B)).mpr ⟨i, List.mem_range.mpr hi, hif⟩) hx

/-- When an epoch exits, its last event is `sys.exit(1)`. -/
theorem runEpoch_getLast_of_exit {cfg : Config} {B : ℕ} {L : ℕ → ℕ → ℚ}
    {F : ℕ → ℕ → Bool} {e : ℕ} (h : (runEpoch cfg B L F e).2 = true) :
    (runEpoch cfg B L F e).1.getLast? = some (Event.exitProcess 1) := by
  rw [runEpoch] at h ⊢
  by_cases hx : (runSteps cfg B e (L e) (F e) (List.range B)).2 = true
  · rw [if_pos hx] at h ⊢
    have hs := runSteps_getLast_of_exit hx
    show ([Event.trainMode e, Event.zeroGrad]
        ++ (runSteps cfg B e (L e) (F e) (List.range B)).1).getLast? = _
    rw [List.getLast?_append, hs]
    rfl
  · rw [if_neg hx] at h
    cases h

/-- The epoch loop exits iff one of the iterated epochs exits. -/
theorem runEpochs_exit_iff {cfg : Config} {B : ℕ} {L : ℕ → ℕ → ℚ}
    {F : ℕ → ℕ → Bool} :
    ∀ {es : List ℕ},
      (runEpochs cfg B L F es).2 = true ↔
        ∃ e ∈ es, (runEpoch cfg B L F e).2 = true
  | [] => by simp [runEpochs]
  | e :: rest => by
    rw [runEpochs]
    by_cases hx : (runEpoch cfg B L F e).2 = true
    · rw [if_pos hx]
      exact ⟨fun _ => ⟨e, List.mem_cons_self .., hx⟩, fun _ => rfl⟩
    · rw [if_neg hx]
      show (runEpochs cfg B L F rest).2 = true ↔ _
      rw [@runEpochs_exit_iff cfg B L F rest]
      constructor
      · rintro ⟨e', he', h2⟩
        exact ⟨e', List.mem_cons_of_mem _ he', h2⟩
      · rintro ⟨e', he', h2⟩
        rcases List.mem_cons.mp he' with rfl | he'
        · exact absurd h2 hx
        · exact ⟨e', he', h2⟩

/-- When the epoch loop exits, the whole trace ends in `sys.exit(1)`:
nothing (in particular no checkpoint) follows the exit. -/
theorem runEpochs_getLast_of_exit {cfg : Config} {B : ℕ} {L : ℕ → ℕ → ℚ}
    {F : ℕ → ℕ → Bool} :
    ∀ {es : List ℕ}, (runEpochs cfg B L F es).2 = true →
      (runEpochs cfg B L F es).1.getLast? = some (Event.exitProcess 1)
  | [], h => by simp [runEpochs] at h
  | e :: rest, h => by
    rw [runEpochs] at h ⊢
    by_cases hx : (runEpoch cfg B L F e).2 = true
    · rw [if_pos hx] at h ⊢
      exact runEpoch_getLast_of_exit hx
    · rw [if_neg hx] at h ⊢
      replace h : (runEpochs cfg B L F rest).2 = true := h
      have ih := @runEpochs_getLast_of_exit cfg B L F rest h
      show ((runEpoch cfg B L F e).1
          ++ (runEpochs cfg B L F rest).1).getLast? = _
      rw [List.getLast?_append, ih]
      rfl

/-- A checkpoint-save event in the main trace sits at a visited epoch whose
checkpoint condition held and all of whose batches passed the finiteness
check. -/
theorem save_mem_mainTrace {cfg : Config} {B : ℕ} {L : ℕ → ℕ → ℚ}
    {F : ℕ → ℕ → Bool} {e : ℕ}
    (h : Event.save e ∈ (mainTrace cfg B L F).1) :
    e ∈ epochsVisited cfg ∧ checkpointDue cfg e = true ∧
      ∀ i < B, F e i = true := by
  obtain ⟨e', he', h2⟩ := mem_runEpochs h
  rcases mem_runEpoch h2 with h3 | h3 | h3 | ⟨h3, hsnd, hdue⟩
  · cases h3
  · cases h3
  · obtain ⟨j, hj, hb⟩ := mem_runSteps h3
    exact absurd hb save_not_mem_batchBlock
  · obtain rfl : e = e' := by injection h3
    refine ⟨he', hdue, fun i hi => ?_⟩
    cases hFei : F e i
    · exact absurd ((@runSteps_exit_iff cfg B e (L e) (F e)
        (List.range B)).mpr
        ⟨i, List.mem_range.mpr hi, hFei⟩) (by simp [hsnd])
    · rfl

/-- In an all-finite run, every visited epoch whose checkpoint condition
holds produces a save event. -/
theorem save_mem_mainTrace_of {cfg : Config} {B : ℕ} {L : ℕ → ℕ → ℚ}
    {F : ℕ → ℕ → Bool} {e : ℕ}
    (hfin : ∀ e' ∈ epochsVisited cfg, ∀ i' < B, F e' i' = true)
    (he : e ∈ epochsVisited cfg) (hdue : checkpointDue cfg e = true) :
    Event.save e ∈ (mainTrace cfg B L F).1 := by
  rw [mainTrace, runEpochs_eq_of_finite hfin]
  refine List.mem_flatten.mpr
    ⟨(runEpoch cfg B L F e).1, List.mem_map_of_mem _ he, ?_⟩
  rw [runEpoch_eq_of_finite (hfin e he)]
  simp [hdue]

/-- The update flag of a scaler event is exactly its `isUpdStep` status. -/
theorem isUpdStep_scaleLoss {e i : ℕ} {l : ℚ} {u : Bool} :
    isUpdStep (Event.scaleLoss e i l u) = u := by
  cases u <;> rfl

/-- Two non-step, non-epoch-start events may be adjacent as long as the
second is not a zero-grad. -/
theorem zeroGradPlacement_of_ok {a b : Event} (h1 : isUpdStep a = false)
    (h2 : isTrainMode a = false) (h3 : b ≠ Event.zeroGrad) :
    zeroGradPlacement a b :=
  ⟨fun hb => absurd hb h3,
   fun hu => absurd hu (by simp [h1]),
   fun ht => absurd ht (by simp [h2])⟩

/-- An epoch-start event is not a zero-grad. -/
theorem ne_zeroGrad_of_isTrainMode {x : Event} (h : isTrainMode x = true) :
    x ≠ Event.zeroGrad := by
  intro hx
  subst hx
  simp [isTrainMode] at h

/-- Appending to the right does not change the head of a nonempty list. -/
theorem head?_append_left {α : Type} {l₁ l₂ : List α} (h : l₁ ≠ []) :
    (l₁ ++ l₂).head? = l₁.head? := by
  cases l₁ with
  | nil => exact absurd rfl h
  | cons a t => rfl

/-- Appending a nonempty list on the right determines the last element. -/
theorem getLast?_append_right {α : Type} {l₁ l₂ : List α} (h : l₂ ≠ []) :
    (l₁ ++ l₂).getLast? = l₂.getLast? := by
  rw [List.getLast?_append]
  cases hl : l₂.getLast? with
  | none => exact absurd (List.getLast?_eq_none_iff.mp hl) h
  | some y => rfl

/-- A batch block satisfies the zero-grad placement discipline internally,
is nonempty, never begins with a zero-grad, and never ends in an event that
demands a successor (its last event is neither an update-enabled scaler
call pending its zero-grad inside another block, nor an epoch start). -/
theorem batchBlock_chain {cfg : Config} {B ep i : ℕ} {li : ℚ} {f : Bool} :
    List.Chain' zeroGradPlacement (batchBlock cfg B ep i li f) ∧
    batchBlock cfg B ep i li f ≠ [] ∧
    (∀ x, (batchBlock cfg B ep i li f).head? = some x →
      x ≠ Event.zeroGrad) ∧
    (∀ x, (batchBlock cfg B ep i li f).getLast? = some x →
      isUpdStep x = false ∧ isTrainMode x = false) := by
  unfold batchBlock
  by_cases hw : (i + 1) % cfg.accumIter = 0 <;> cases f <;> split_ifs <;>
    refine ⟨?_, ?_, ?_, ?_⟩ <;>
      simp_all [zeroGradPlacement, isUpdStep, isTrainMode, scale_loss,
        adjust_learning_rate, List.chain'_cons]

/-- The inner-loop trace satisfies the zero-grad placement discipline,
never begins with a zero-grad, and never ends in an event demanding a
successor. -/
theorem runSteps_chain {cfg : Config} {B ep : ℕ} {L : ℕ → ℚ}
    {F : ℕ → Bool} :
    ∀ {steps : List ℕ},
      List.Chain' zeroGradPlacement (runSteps cfg B ep L F steps).1 ∧
      (∀ x, (runSteps cfg B ep L F steps).1.head? = some x →
        x ≠ Event.zeroGrad) ∧
      (∀ x, (runSteps cfg B ep L F steps).1.getLast? = some x →
        isUpdStep x = false ∧ isTrainMode x = false)
  | [] => by simp [runSteps]
  | i :: rest => by
    obtain ⟨ihc, ihh, ihl⟩ := @runSteps_chain cfg B ep L F rest
    rw [runSteps]
    by_cases hf : F i = true
    · rw [if_pos hf]
      obtain ⟨bc, bne, bh, bl⟩ := @batchBlock_chain cfg B ep i (L i) true
      refine ⟨?_, ?_, ?_⟩
      · show List.Chain' _
          (batchBlock cfg B ep i (L i) true ++ (runSteps cfg B ep L F rest).1)
        rw [List.chain'_append]
        exact ⟨bc, ihc, fun x hx y hy =>
          zeroGradPlacement_of_ok (bl x hx).1 (bl x hx).2 (ihh y hy)⟩
      · show ∀ x, (batchBlock cfg B ep i (L i) true
            ++ (runSteps cfg B ep L F rest).1).head? = some x →
            x ≠ Event.zeroGrad
        intro x hx
        rw [head?_append_left bne] at hx
        exact bh x hx
      · show ∀ x, (batchBlock cfg B ep i (L i) true
            ++ (runSteps cfg B ep L F rest).1).getLast? = some x →
            isUpdStep x = false ∧ isTrainMode x = false
        intro x hx
        by_cases hn : (runSteps cfg B ep L F rest).1 = []
        · rw [hn, List.append_nil] at hx
          exact bl x hx
        · rw [getLast?_append_right hn] at hx
          exact ihl x hx
    · rw [if_neg hf]
      obtain ⟨bc, bne, bh, bl⟩ := @batchBlock_chain cfg B ep i (L i) false
      exact ⟨bc, bh, bl⟩

/-- An epoch-start event is immediately followed by the epoch's zero-grad
and satisfies the placement relation towards it. -/
theorem zgp_trainMode_zeroGrad {e : ℕ} :
    zeroGradPlacement (Event.trainMode e) Event.zeroGrad :=
  ⟨fun _ => Or.inr rfl, fun hu => by simp [isUpdStep] at hu, fun _ => rfl⟩

/-- The placement discipline and the head/last conditions are preserved by
concatenating well-formed trace segments. -/
theorem chain_props_append {X Y : List Event}
    (hcX : List.Chain' zeroGradPlacement X) (hhX : headOK X) (hlX : lastOK X)
    (hcY : List.Chain' zeroGradPlacement Y) (hhY : headOK Y)
    (hlY : lastOK Y) :
    List.Chain' zeroGradPlacement (X ++ Y) ∧ headOK (X ++ Y) ∧
      lastOK (X ++ Y) := by
  refine ⟨?_, ?_, ?_⟩
  · rw [List.chain'_append]
    refine ⟨hcX, hcY, fun x hx y hy => ?_⟩
    have hx' : X.getLast? = some x := hx
    have hy' : Y.head? = some y := hy
    exact zeroGradPlacement_of_ok (hlX x hx').1 (hlX x hx').2 (hhY y hy')
  · intro x hx
    by_cases hn : X = []
    · subst hn
      rw [List.nil_append] at hx
      exact hhY x hx
    · rw [head?_append_left hn] at hx
      exact hhX x hx
  · intro x hx
    by_cases hn : Y = []
    · subst hn
      rw [List.append_nil] at hx
      exact hlX x hx
    · rw [getLast?_append_right hn] at hx
      exact hlY x hx

/-- Prefixing a well-formed trace segment with the epoch-start pair
`engine.train(); engine.zero_grad()` preserves the placement discipline;
the result starts with the epoch-start event and keeps a well-formed
tail. -/
theorem epoch_shape_chain {X : List Event} {e : ℕ}
    (hc : List.Chain' zeroGradPlacement X) (hh : headOK X) (hl : lastOK X) :
    List.Chain' zeroGradPlacement
      (Event.trainMode e :: Event.zeroGrad :: X) ∧
    (∀ x, (Event.trainMode e :: Event.zeroGrad :: X).head? = some x →
      isTrainMode x = true) ∧
    lastOK (Event.trainMode e :: Event.zeroGrad :: X) := by
  refine ⟨?_, ?_, ?_⟩
  · rw [List.chain'_cons']
    refine ⟨fun y hy => ?_, ?_⟩
    · have hy' : (Event.zeroGrad :: X).head? = some y := hy
      have : Event.zeroGrad = y := by simpa using hy'
      subst this
      exact zgp_trainMode_zeroGrad
    · rw [List.chain'_cons']
      exact ⟨fun y hy => zeroGradPlacement_of_ok rfl rfl (hh y hy), hc⟩
  · intro x hx
    have : Event.trainMode e = x := by simpa using hx
    subst this
    rfl
  · intro x hx
    by_cases hn : X = []
    · subst hn
      have : Event.zeroGrad = x := by simpa using hx
      subst this
      exact ⟨rfl, rfl⟩
    · rw [show Event.trainMode e :: Event.zeroGrad :: X
          = [Event.trainMode e, Event.zeroGrad] ++ X from rfl,
        getLast?_append_right hn] at hx
      exact hl x hx

/-- One epoch's trace satisfies the placement discipline, is nonempty,
starts with the epoch-start event, and ends well. -/
theorem runEpoch_chain {cfg : Config} {B : ℕ} {L : ℕ → ℕ → ℚ}
    {F : ℕ → ℕ → Bool} {e : ℕ} :
    List.Chain' zeroGradPlacement (runEpoch cfg B L F e).1 ∧
    (runEpoch cfg B L F e).1 ≠ [] ∧
    (∀ x, (runEpoch cfg B L F e).1.head? = some x →
      isTrainMode x = true) ∧
    lastOK (runEpoch cfg B L F e).1 := by
  obtain ⟨sc, sh, sl⟩ := @runSteps_chain cfg B e (L e) (F e) (List.range B)
  rw [runEpoch]
  by_cases hx : (runSteps cfg B e (L e) (F e) (List.range B)).2 = true
  · rw [if_pos hx]
    obtain ⟨c1, c2, c3⟩ := epoch_shape_chain (e := e) sc sh sl
    exact ⟨c1, by simp, c2, c3⟩
  · rw [if_neg hx]
    have hsave : List.Chain' zeroGradPlacement
        (if checkpointDue cfg e then [Event.save e] else []) ∧
        headOK (if checkpointDue cfg e then [Event.save e] else []) ∧
        lastOK (if checkpointDue cfg e then [Event.save e] else []) := by
      split_ifs
      · refine ⟨List.chain'_singleton _, fun x hxm => ?_, fun x hxm => ?_⟩
        · have : Event.save e = x := by simpa using hxm
          subst this
          simp
        · have : Event.save e = x := by simpa using hxm
          subst this
          exact ⟨rfl, rfl⟩
      · refine ⟨by simp, fun x hxm => ?_, fun x hxm => ?_⟩ <;> simp at hxm
    obtain ⟨qc, qh, ql⟩ := hsave
    obtain ⟨c1, c2, c3⟩ := chain_props_append sc sh sl qc qh ql
    obtain ⟨d1, d2, d3⟩ := epoch_shape_chain (e := e) c1 c2 c3
    exact ⟨d1, by simp, d2, d3⟩

/-- The whole epoch loop's trace satisfies the placement discipline,
starts (when nonempty) with an epoch-start event, and ends well. -/
theorem runEpochs_chain {cfg : Config} {B : ℕ} {L : ℕ → ℕ → ℚ}
    {F : ℕ → ℕ → Bool} :
    ∀ {es : List ℕ},
      List.Chain' zeroGradPlacement (runEpochs cfg B L F es).1 ∧
      (∀ x, (runEpochs cfg B L F es).1.head? = some x →
        isTrainMode x = true) ∧
      lastOK (runEpochs cfg B L F es).1
  | [] => by
    refine ⟨by simp [runEpochs], ?_, ?_⟩ <;> intro x hx <;>
      simp [runEpochs] at hx
  | e :: rest => by
    obtain ⟨ic, ihh, il⟩ := @runEpochs_chain cfg B L F rest
    obtain ⟨ec, ene, eh, el⟩ := @runEpoch_chain cfg B L F e
    rw [runEpochs]
    by_cases hx : (runEpoch cfg B L F e).2 = true
    · rw [if_pos hx]
      exact ⟨ec, eh, el⟩
    · rw [if_neg hx]
      refine ⟨?_, ?_, ?_⟩
      · show List.Chain' _
          ((runEpoch cfg B L F e).1 ++ (runEpochs cfg B L F rest).1)
        rw [List.chain'_append]
        refine ⟨ec, ic, fun x hxm y hym => ?_⟩
        exact zeroGradPlacement_of_ok (el x hxm).1 (el x hxm).2
          (ne_zeroGrad_of_isTrainMode (ihh y hym))
      · show ∀ x, ((runEpoch cfg B L F e).1
            ++ (runEpochs cfg B L F rest).1).head? = some x →
            isTrainMode x = true
        intro x hxm
        rw [head?_append_left ene] at hxm
        exact eh x hxm
      · show lastOK ((runEpoch cfg B L F e).1
            ++ (runEpochs cfg B L F rest).1)
        intro x hxm
        by_cases hn : (runEpochs cfg B L F rest).1 = []
        · rw [hn, List.append_nil] at hxm
          exact el x hxm
        · rw [getLast?_append_right hn] at hxm
          exact il x hxm

/-- An `updOfEpoch` test on a scaler event reduces to its flag and epoch. -/
theorem updOfEpoch_scaleLoss {e e' i : ℕ} {l : ℚ} {u : Bool} :
    updOfEpoch e (Event.scaleLoss e' i l u) = (u && (e' == e)) := by
  cases u <;> rfl

/-- Count of update-enabled scaler calls of one finite-loss batch block. -/
theorem countP_batchBlock {cfg : Config} {B ep i e : ℕ} {li : ℚ} :
    (batchBlock cfg B ep i li true).countP (updOfEpoch e)
      = if ep = e ∧ (i + 1) % cfg.accumIter = 0 then 1 else 0 := by
  unfold batchBlock
  by_cases hw : (i + 1) % cfg.accumIter = 0 <;>
    by_cases hpe : ep = e <;>
      split_ifs <;>
        simp_all [scale_loss, adjust_learning_rate, updOfEpoch,
          updOfEpoch_scaleLoss, List.countP_cons, List.countP_append]

/-- Count of update-enabled scaler calls over an all-finite inner loop. -/
theorem countP_runSteps {cfg : Config} {B ep e : ℕ} {L : ℕ → ℚ}
    {F : ℕ → Bool} :
    ∀ {steps : List ℕ}, (∀ i ∈ steps, F i = true) →
      (runSteps cfg B ep L F steps).1.countP (updOfEpoch e)
        = if ep = e
          then steps.countP (fun i => (i + 1) % cfg.accumIter == 0)
          else 0
  | [], _ => by simp [runSteps]
  | i :: rest, h => by
    have hf : F i = true := h i (List.mem_cons_self ..)
    rw [runSteps, if_pos hf]
    show (batchBlock cfg B ep i (L i) true
        ++ (runSteps cfg B ep L F rest).1).countP _ = _
    rw [List.countP_append, countP_batchBlock,
      countP_runSteps (fun j hj => h j (List.mem_cons_of_mem _ hj)),
      List.countP_cons]
    by_cases hpe : ep = e <;>
      by_cases hw : (i + 1) % cfg.accumIter = 0 <;>
        simp_all <;> omega

/-- The number of completed accumulation windows among `B` batches is
`B / ACCUM_ITER`. -/
theorem countP_range_window (k : ℕ) (hk : 0 < k) :
    ∀ B : ℕ, (List.range B).countP (fun i => (i + 1) % k == 0) = B / k
  | 0 => by simp
  | B + 1 => by
    rw [List.range_succ, List.countP_append, countP_range_window k hk B,
      Nat.succ_div]
    simp only [List.countP_cons, List.countP_nil]
    by_cases hd : k ∣ B + 1
    · have hm : (B + 1) % k = 0 := Nat.mod_eq_zero_of_dvd hd
      simp [hd, hm]
    · have hm : ¬(B + 1) % k = 0 := fun hc => hd (Nat.dvd_of_mod_eq_zero hc)
      simp [hd, hm]

/-- Count of update-enabled scaler calls in one all-finite epoch. -/
theorem countP_runEpoch {cfg : Config} {B e' e : ℕ} {L : ℕ → ℕ → ℚ}
    {F : ℕ → ℕ → Bool} (hk : 0 < cfg.accumIter)
    (h : ∀ i < B, F e' i = true) :
    (runEpoch cfg B L F e').1.countP (updOfEpoch e)
      = if e' = e then B / cfg.accumIter else 0 := by
  have hfin : ∀ i ∈ List.range B, F e' i = true :=
    fun i hi => h i (List.mem_range.mp hi)
  have hs := @runSteps_eq_flatten cfg B e' (L e') (F e') (List.range B) hfin
  have hc := @countP_runSteps cfg B e' e (L e') (F e') (List.range B) hfin
  rw [countP_range_window cfg.accumIter hk B] at hc
  rw [hs] at hc
  rw [runEpoch, hs]
  show (Event.trainMode e' :: Event.zeroGrad ::
      (((List.range B).map fun i => batchBlock cfg B e' i (L e' i) true).flatten
        ++ (if checkpointDue cfg e' then [Event.save e'] else []))).countP _ = _
  rw [List.countP_cons, List.countP_cons, List.countP_append]
  have h0 : updOfEpoch e (Event.trainMode e') = false := rfl
  have h1 : updOfEpoch e Event.zeroGrad = false := rfl
  have h2 : (if checkpointDue cfg e' then [Event.save e']
      else []).countP (updOfEpoch e) = 0 := by
    split_ifs <;> simp [List.countP_cons, updOfEpoch]
  rw [hc, h2]
  simp [h0, h1]

/-- Count of update-enabled scaler calls of epoch `e` over an all-finite
run: `B / ACCUM_ITER` per occurrence of `e` among the iterated epochs. -/
theorem countP_runEpochs {cfg : Config} {B e : ℕ} {L : ℕ → ℕ → ℚ}
    {F : ℕ → ℕ → Bool} (hk : 0 < cfg.accumIter) :
    ∀ {es : List ℕ}, (∀ e' ∈ es, ∀ i < B, F e' i = true) →
      (runEpochs cfg B L F es).1.countP (updOfEpoch e)
        = es.count e * (B / cfg.accumIter)
  | [], _ => by simp [runEpochs]
  | e' :: rest, h => by
    have h1 := @runEpoch_eq_of_finite cfg B L F e'
      (h e' (List.mem_cons_self ..))
    have hsnd : (runEpoch cfg B L F e').2 = false := by rw [h1]
    rw [runEpochs, if_neg (by simp [hsnd])]
    show ((runEpoch cfg B L F e').1
        ++ (runEpochs cfg B L F rest).1).countP _ = _
    rw [List.countP_append, countP_runEpoch hk (h e' (List.mem_cons_self ..)),
      countP_runEpochs hk (fun x hx => h x (List.mem_cons_of_mem _ hx)),
      List.count_cons]
    by_cases hpe : e' = e <;> simp_all [Nat.add_mul] <;> ring

/-- The two strings a run's datasets are loaded from are distinct. -/
theorem train_path_ne_val_path (datapath : String) :
    datapath ++ "/train" ≠ datapath ++ "/val" := by
  intro h
  have hlen := congrArg String.length h
  rw [String.length_append, String.length_append] at hlen
  have h6 : ("/train" : String).length = 6 := rfl
  have h4 : ("/val" : String).length = 4 := rfl
  rw [h6, h4] at hlen
  omega

/-- C6: every checkpoint written by `save_model` holds exactly the model
state, the optimizer state, the integer epoch, the scaler state and the
configuration, at path `<output_dir>/checkpoint-<epoch>.pth`. -/
theorem save_model_record (M O S C : Type) (m : M) (output_dir : String)
    (epoch : ℕ) (config : C) (optimizer : O) (loss_scaler : S) :
    (save_model M O S C m output_dir epoch config optimizer loss_scaler).path
        = output_dir ++ "/" ++ "checkpoint-" ++ toString epoch ++ ".pth" ∧
    (save_model M O S C m output_dir epoch config optimizer loss_scaler).contents
        = { model := m, optimizer := optimizer, epoch := epoch,
            scaler := loss_scaler, config := config } :=
  ⟨rfl, rfl⟩

/-- C7: the epoch indices visited by the main loop strictly increase, start
at `start_epoch` (0 without resume, the resume routine's result with it)
and end at `NUM_EPOCHS - 1`. -/
theorem epochs_strictly_increase (cfg : Config) :
    List.Pairwise (· < ·) (epochsVisited cfg) ∧
    start_epoch cfg = (if cfg.resume then resume_model cfg else 0) ∧
    (start_epoch cfg < cfg.numEpochs →
      (epochsVisited cfg).head? = some (start_epoch cfg) ∧
      (epochsVisited cfg).getLast? = some (cfg.numEpochs - 1)) := by
  refine ⟨List.pairwise_lt_range' _ _, rfl, fun h => ⟨?_, ?_⟩⟩
  · rw [epochsVisited, List.head?_range', if_neg (by omega)]
  · have hk : cfg.numEpochs - start_epoch cfg =
        (cfg.numEpochs - start_epoch cfg - 1) + 1 := by omega
    rw [epochsVisited, hk, List.range'_concat, List.getLast?_concat]
    congr 1
    omega

/-- C7 witness: at a concrete resumed configuration the visited epochs run
from the resume start epoch to `NUM_EPOCHS - 1`. -/
theorem epochs_strictly_increase_witness :
    (epochsVisited cfgW).head? = some (start_epoch cfgW) ∧
    (epochsVisited cfgW).getLast? = some (cfgW.numEpochs - 1) :=
  (epochs_strictly_increase cfgW).2.2 (by decide)

/-- C8: both dataloaders returned by `pretrain_dataloaders` are built from
the dataset loaded from `<DATAPATH>/train`; the dataset loaded from
`<DATAPATH>/val` is not the dataset of either dataloader. -/
theorem dataloaders_both_use_train_split (datapath : String)
    (transform_train : String) (transform_val : String) (batch_size : ℕ) :
    (pretrain_dataloaders datapath transform_train transform_val
        batch_size).1.dataset
      = _load_imgfolder (datapath ++ "/train") transform_train ∧
    (pretrain_dataloaders datapath transform_train transform_val
        batch_size).2.dataset
      = _load_imgfolder (datapath ++ "/train") transform_train ∧
    (pretrain_dataloaders datapath transform_train transform_val
        batch_size).1.dataset
      ≠ _load_imgfolder (datapath ++ "/val") transform_val ∧
    (pretrain_dataloaders datapath transform_train transform_val
        batch_size).2.dataset
      ≠ _load_imgfolder (datapath ++ "/val") transform_val := by
  refine ⟨rfl, rfl, ?_, ?_⟩ <;>
    exact fun h => train_path_ne_val_path datapath
      (congrArg ImageDataset.path h)

/-- C1: every scaler invocation of the training loop receives the batch
loss divided by `ACCUM_ITER`, and its `update_grad` (optimizer step) flag
is set iff `(i+1) mod ACCUM_ITER == 0`, so no optimizer step occurs on
intermediate iterations of an accumulation window; and in an all-finite
run every visited batch makes exactly such a scaler invocation. -/
theorem loss_division_and_update_gating (cfg : Config) (B : ℕ)
    (L : ℕ → ℕ → ℚ) (F : ℕ → ℕ → Bool) :
    (∀ e i l u, Event.scaleLoss e i l u ∈ (mainTrace cfg B L F).1 →
        l = L e i / (cfg.accumIter : ℚ) ∧
        (u = true ↔ (i + 1) % cfg.accumIter = 0)) ∧
    ((∀ e' ∈ epochsVisited cfg, ∀ i' < B, F e' i' = true) →
      ∀ e ∈ epochsVisited cfg, ∀ i < B,
        Event.scaleLoss e i (L e i / (cfg.accumIter : ℚ))
          ((i + 1) % cfg.accumIter == 0) ∈ (mainTrace cfg B L F).1) := by
  constructor
  · intro e i l u h
    obtain ⟨-, -, -, hl, hu⟩ := scaleLoss_mem_mainTrace h
    subst hu
    simpa using hl
  · intro hfin e he i hi
    exact mem_mainTrace_of_finite hfin he hi scale_loss_mem_batchBlock

/-- C1 witness: in the all-finite concrete run, batch 0 of epoch 1 invokes
the scaler with the divided loss and the update flag of a completed
two-batch window's first half (disabled). -/
theorem loss_division_and_update_gating_witness :
    Event.scaleLoss 1 0 (lossW 1 0 / (cfgW.accumIter : ℚ))
      ((0 + 1) % cfgW.accumIter == 0) ∈ (mainTrace cfgW 3 lossW finAllW).1 :=
  (loss_division_and_update_gating cfgW 3 lossW finAllW).2 (by decide) 1
    (by decide) 0 (by decide)

/-- C3: every lr-adjustment of the training loop happens at a batch index
with `i mod ACCUM_ITER == 0` and passes the fractional epoch position
`i/len(loader) + epoch` together with the configured base rate, minimum
rate, total epochs and warmup epochs; and in an all-finite run every
window-initial batch of every visited epoch performs the adjustment. -/
theorem lr_adjusted_once_per_window (cfg : Config) (B : ℕ)
    (L : ℕ → ℕ → ℚ) (F : ℕ → ℕ → Bool) :
    (∀ e i pos lr ml eps w,
        Event.adjustLR e i pos lr ml eps w ∈ (mainTrace cfg B L F).1 →
        i % cfg.accumIter = 0 ∧ pos = (i : ℚ) / (B : ℚ) + (e : ℚ) ∧
          lr = cfg.learningRate ∧ ml = cfg.minimumLearningRate ∧
          eps = cfg.numEpochs ∧ w = cfg.warmupEpochs) ∧
    ((∀ e' ∈ epochsVisited cfg, ∀ i' < B, F e' i' = true) →
      ∀ e ∈ epochsVisited cfg, ∀ i < B, i % cfg.accumIter = 0 →
        adjust_learning_rate e i B cfg ∈ (mainTrace cfg B L F).1) := by
  constructor
  · intro e i pos lr ml eps w h
    obtain ⟨-, -, hm, hpos, hlr, hml, heps, hw⟩ := adjustLR_mem_mainTrace h
    exact ⟨hm, hpos, hlr, hml, heps, hw⟩
  · intro hfin e he i hi hmod
    exact mem_mainTrace_of_finite hfin he hi (adjust_mem_batchBlock hmod)

/-- C3 witness: in the all-finite concrete run, epoch 1 adjusts the
learning rate at its window-initial batch 2. -/
theorem lr_adjusted_once_per_window_witness :
    adjust_learning_rate 1 2 3 cfgW ∈ (mainTrace cfgW 3 lossW finAllW).1 :=
  (lr_adjusted_once_per_window cfgW 3 lossW finAllW).2 (by decide) 1
    (by decide) 2 (by decide) (by decide)

/-- C4: a run whose visited batches all pass the finiteness check does not
exit; a run containing a non-finite loss exits, and the exit — with status
1, the only status ever used — is the last event of the trace, so nothing
(no retry, no checkpoint) follows it; moreover a checkpoint for an epoch
exists only if every batch of that epoch had a finite loss. -/
theorem divergence_fatal_exit (cfg : Config) (B : ℕ)
    (L : ℕ → ℕ → ℚ) (F : ℕ → ℕ → Bool) :
    ((∀ e ∈ epochsVisited cfg, ∀ i < B, F e i = true) →
        (mainTrace cfg B L F).2 = false) ∧
    ((∃ e ∈ epochsVisited cfg, ∃ i < B, F e i = false) →
        (mainTrace cfg B L F).2 = true ∧
        (mainTrace cfg B L F).1.getLast? = some (Event.exitProcess 1)) ∧
    (∀ s, Event.exitProcess s ∈ (mainTrace cfg B L F).1 → s = 1) ∧
    (∀ e, Event.save e ∈ (mainTrace cfg B L F).1 →
        ∀ i < B, F e i = true) := by
  refine ⟨fun hfin => ?_, fun hbad => ?_, fun s h => ?_, fun e h => ?_⟩
  · rw [mainTrace, runEpochs_eq_of_finite hfin]
  · obtain ⟨e, he, i, hi, hf⟩ := hbad
    have hx : (mainTrace cfg B L F).2 = true :=
      (@runEpochs_exit_iff cfg B L F (epochsVisited cfg)).mpr
        ⟨e, he, runEpoch_exit_iff.mpr ⟨i, hi, hf⟩⟩
    exact ⟨hx, runEpochs_getLast_of_exit hx⟩
  · obtain ⟨e', he', h2⟩ := mem_runEpochs h
    rcases mem_runEpoch h2 with h3 | h3 | h3 | ⟨h3, -, -⟩
    · cases h3
    · cases h3
    · obtain ⟨j, hj, hb⟩ := mem_runSteps h3
      exact (mem_batchBlock_exitProcess hb).1
    · cases h3
  · exact (save_mem_mainTrace h).2.2

/-- C4 witness: the concrete run whose epoch-2 batch 1 loss is non-finite
exits, and the last event of its trace is `sys.exit(1)`. -/
theorem divergence_fatal_exit_witness :
    (mainTrace cfgW 3 lossW finBadW).2 = true ∧
    (mainTrace cfgW 3 lossW finBadW).1.getLast?
      = some (Event.exitProcess 1) :=
  (divergence_fatal_exit cfgW 3 lossW finBadW).2.1 (by decide)

/-- C5: in an all-finite run a checkpoint for epoch `e` is saved iff an
output directory is configured, `e` is visited, and `e mod
CHECKPOINT_INTERVAL == 0` or `e` is the final epoch `NUM_EPOCHS - 1`; and
without an output directory no checkpoint is ever saved. -/
theorem checkpoint_cadence (cfg : Config) (B : ℕ)
    (L : ℕ → ℕ → ℚ) (F : ℕ → ℕ → Bool)
    (hci : 0 < cfg.checkpointInterval) :
    ((∀ e' ∈ epochsVisited cfg, ∀ i' < B, F e' i' = true) →
      ∀ e, (Event.save e ∈ (mainTrace cfg B L F).1 ↔
        cfg.outputDir.isSome = true ∧ e ∈ epochsVisited cfg ∧
          (e % cfg.checkpointInterval = 0 ∨ e = cfg.numEpochs - 1))) ∧
    (cfg.outputDir = none →
      ∀ e, Event.save e ∉ (mainTrace cfg B L F).1) := by
  constructor
  · intro hfin e
    constructor
    · intro h
      obtain ⟨he, hdue, -⟩ := save_mem_mainTrace h
      have hlt : e < cfg.numEpochs := by
        have := List.mem_range'_1.mp (by simpa [epochsVisited] using he)
        omega
      rw [checkpointDue, Bool.and_eq_true, Bool.or_eq_true] at hdue
      refine ⟨hdue.1, he, ?_⟩
      rcases hdue.2 with h2 | h2
      · exact Or.inl (by simpa using h2)
      · refine Or.inr ?_
        have h3 : e + 1 = cfg.numEpochs := by simpa using h2
        omega
    · rintro ⟨hdir, he, hcond⟩
      have hlt : e < cfg.numEpochs := by
        have := List.mem_range'_1.mp (by simpa [epochsVisited] using he)
        omega
      refine save_mem_mainTrace_of hfin he ?_
      rw [checkpointDue, Bool.and_eq_true, Bool.or_eq_true]
      refine ⟨hdir, ?_⟩
      rcases hcond with h2 | h2
      · exact Or.inl (by simpa using h2)
      · refine Or.inr ?_
        have h3 : e + 1 = cfg.numEpochs := by omega
        simpa using h3
  · intro hnone e h
    have hdue := (save_mem_mainTrace h).2.1
    rw [checkpointDue, hnone, Bool.and_eq_true] at hdue
    cases hdue.1

/-- C5 witness: in the all-finite concrete run, epoch 2 (an even epoch
with `CHECKPOINT_INTERVAL = 2`) writes a checkpoint. -/
theorem checkpoint_cadence_witness :
    Event.save 2 ∈ (mainTrace cfgW 3 lossW finAllW).1 :=
  ((checkpoint_cadence cfgW 3 lossW finAllW (by decide)).1 (by decide)
    2).mpr (by decide)

/-- C9: the finiteness check precedes the scaler call: the scaler is only
ever invoked on a batch whose loss passed the check, so a batch with a
non-finite loss never reaches the scaler (no backward pass, no optimizer,
gradient or scaler-state mutation from that batch) before the exit. -/
theorem scaler_only_after_finiteness_check (cfg : Config) (B : ℕ)
    (L : ℕ → ℕ → ℚ) (F : ℕ → ℕ → Bool) :
    (∀ e i l u, Event.scaleLoss e i l u ∈ (mainTrace cfg B L F).1 →
        F e i = true) ∧
    (∀ e i, F e i = false →
        ∀ l u, Event.scaleLoss e i l u ∉ (mainTrace cfg B L F).1) := by
  constructor
  · intro e i l u h
    exact (scaleLoss_mem_mainTrace h).2.2.1
  · intro e i hf l u h
    rw [(scaleLoss_mem_mainTrace h).2.2.1] at hf
    cases hf

/-- C9 witness: in the concrete diverging run, no scaler event exists for
the non-finite batch 1 of epoch 2. -/
theorem scaler_only_after_finiteness_check_witness :
    Event.scaleLoss 2 1 0 true ∉ (mainTrace cfgW 3 lossW finBadW).1 :=
  (scaler_only_after_finiteness_check cfgW 3 lossW finBadW).2 2 1
    (by decide) 0 true

/-- C2: throughout every run, a zero-grad appears only right after the
epoch-start `engine.train()` or right after an update-enabled (completed
accumulation window) scaler call, and each of those events is immediately
followed by a zero-grad — never mid-window (adjacent-pair discipline over
the whole trace, non-vacuous at the end since the trace never ends in an
event still awaiting its zero-grad); a scaler call is update-enabled iff
`(i+1) mod ACCUM_ITER == 0`; and every epoch's trace begins with the
`engine.train(); engine.zero_grad()` pair. -/
theorem zero_grad_epoch_start_and_window_end (cfg : Config) (B : ℕ)
    (L : ℕ → ℕ → ℚ) (F : ℕ → ℕ → Bool) :
    List.Chain' zeroGradPlacement (mainTrace cfg B L F).1 ∧
    (∀ x, (mainTrace cfg B L F).1.getLast? = some x →
        isUpdStep x = false ∧ isTrainMode x = false) ∧
    (∀ e i l u, Event.scaleLoss e i l u ∈ (mainTrace cfg B L F).1 →
        (isUpdStep (Event.scaleLoss e i l u) = true ↔
          (i + 1) % cfg.accumIter = 0)) ∧
    (∀ e, (runEpoch cfg B L F e).1.take 2
        = [Event.trainMode e, Event.zeroGrad]) := by
  obtain ⟨c1, -, c3⟩ := @runEpochs_chain cfg B L F (epochsVisited cfg)
  refine ⟨c1, c3, fun e i l u h => ?_, fun e => ?_⟩
  · obtain ⟨-, -, -, -, hu⟩ := scaleLoss_mem_mainTrace h
    rw [isUpdStep_scaleLoss, hu]
    simp
  · rw [runEpoch]
    split_ifs <;> rfl

/-- C2 witness: in the all-finite concrete run, the scaler call of batch 1
of epoch 1 closes a two-batch window, so it is update-enabled. -/
theorem zero_grad_epoch_start_and_window_end_witness :
    isUpdStep (Event.scaleLoss 1 1 (lossW 1 1 / (cfgW.accumIter : ℚ))
        ((1 + 1) % cfgW.accumIter == 0)) = true ↔
      (1 + 1) % cfgW.accumIter = 0 :=
  (zero_grad_epoch_start_and_window_end cfgW 3 lossW finAllW).2.2.1 1 1
    (lossW 1 1 / (cfgW.accumIter : ℚ)) ((1 + 1) % cfgW.accumIter == 0)
    (mem_mainTrace_of_finite (by decide) (by decide) (by decide)
      scale_loss_mem_batchBlock)

/-- C10: in an all-finite run, each visited epoch performs exactly
`⌊B / ACCUM_ITER⌋` update-enabled scaler calls (optimizer steps); no batch
of a trailing partial window (index at or beyond
`ACCUM_ITER * ⌊B / ACCUM_ITER⌋`) ever has an update-enabled scaler call;
and the next epoch begins with `engine.train(); engine.zero_grad()`,
discarding the partial window's gradients. -/
theorem partial_window_never_stepped (cfg : Config) (B : ℕ)
    (L : ℕ → ℕ → ℚ) (F : ℕ → ℕ → Bool) (hk : 0 < cfg.accumIter)
    (hfin : ∀ e' ∈ epochsVisited cfg, ∀ i' < B, F e' i' = true) :
    (∀ e ∈ epochsVisited cfg,
        (mainTrace cfg B L F).1.countP (updOfEpoch e)
          = B / cfg.accumIter) ∧
    (∀ e i l, cfg.accumIter * (B / cfg.accumIter) ≤ i →
        Event.scaleLoss e i l true ∉ (mainTrace cfg B L F).1) ∧
    (∀ e, (runEpoch cfg B L F e).1.take 2
        = [Event.trainMode e, Event.zeroGrad]) := by
  refine ⟨fun e he => ?_, fun e i l hge h => ?_, fun e => ?_⟩
  · rw [mainTrace, countP_runEpochs hk hfin]
    have hnd : (epochsVisited cfg).Nodup := by
      rw [epochsVisited]
      exact List.nodup_range' ..
    rw [List.count_eq_one_of_mem hnd he, one_mul]
  · obtain ⟨-, hi, -, -, hu⟩ := scaleLoss_mem_mainTrace h
    have hmod : (i + 1) % cfg.accumIter = 0 := by simpa using hu.symm
    obtain ⟨m, hm⟩ := Nat.dvd_of_mod_eq_zero hmod
    have h1 : cfg.accumIter * (B / cfg.accumIter) < cfg.accumIter * m :=
      hm ▸ Nat.lt_of_le_of_lt hge (Nat.lt_succ_self i)
    have h2 : B / cfg.accumIter < m := Nat.lt_of_mul_lt_mul_left h1
    have h5 : B % cfg.accumIter < cfg.accumIter := Nat.mod_lt _ hk
    have hfinal : B < i + 1 := by
      calc B = cfg.accumIter * (B / cfg.accumIter) + B % cfg.accumIter :=
        (Nat.div_add_mod B cfg.accumIter).symm
      _ < cfg.accumIter * (B / cfg.accumIter) + cfg.accumIter :=
        Nat.add_lt_add_left h5 _
      _ = cfg.accumIter * (B / cfg.accumIter + 1) :=
        (Nat.mul_succ ..).symm
      _ ≤ cfg.accumIter * m := Nat.mul_le_mul_left _ h2
      _ = i + 1 := hm.symm
    omega
  · rw [runEpoch]
    split_ifs <;> rfl

/-- C10 witness: in the all-finite concrete run with three batches and
two-batch windows, epoch 1 performs exactly `3 / 2 = 1` optimizer step. -/
theorem partial_window_never_stepped_witness :
    (mainTrace cfgW 3 lossW finAllW).1.countP (updOfEpoch 1)
      = 3 / cfgW.accumIter :=
  (partial_window_never_stepped cfgW 3 lossW finAllW (by decide)
    (by decide)).1 1 (by decide)

end MAEPretrain
